import Mathlib

/-!
# Indico React components: `FileSubmission` and `ManagementPageTitle`

A shallow embedding of

* `indico/web/client/js/react/components/FileSubmission.jsx`
  (`humanReadableBytes`, `onDrop`, `removeFile`), and
* `indico/web/client/js/react/components/ManagementPageTitle.jsx`
  (the effect of `ManagementPageTitle` and its cleanup),

followed by the properties of the selection list, of the size label and of the
heading override.

Conventions of the embedding:

* a browser `File` object is a reference (`FileRef`) into a heap of objects; the
  JavaScript operator `!==` on objects compares references;
* `useState` is explicit state passing: a handler takes the state of the render
  it was created in and returns the next state;
* a callback prop is a transformer of the world outside the component;
* a JavaScript number that holds a non-negative integer is a `Nat`, a double
  that is not an integer is a dyadic fraction `num / 2 ^ sh`.
-/

namespace Indico

/-! ## Files and the selection list -/

/-- A reference to a browser `File` object. -/
abbrev FileRef := Nat

/-- The fields of a `File` object that the component reads. -/
structure FileObj where
  name : String
  size : Nat
deriving DecidableEq

/-- The object heap: the `File` object behind each reference. -/
abbrev Heap := FileRef → FileObj

/-- The value of `new Set(xs)` for a list of strings. -/
def newSet (xs : List String) : Finset String := xs.toFinset

/-- The method `Set.prototype.has`. -/
def has (s : Finset String) (x : String) : Bool := decide (x ∈ s)

/-- The optional `onChange` prop: a function of the selection acting on the
world outside the component. `none` is the default prop `null`. -/
abbrev OnChange (σ : Type) := Option (List FileRef → σ → σ)

/-- The state of `FileSubmission`: the `files` of `useState`, and the world the
`onChange` callback acts on. -/
structure Widget (σ : Type) where
  files : List FileRef
  world : σ

/-- The first render: `useState([])`. -/
def Widget.init {σ : Type} (w : σ) : Widget σ := ⟨[], w⟩

/-- The statement `if (onChange) { onChange(files); }`. -/
def fire {σ : Type} (onChange : OnChange σ) (files : List FileRef) (w : σ) : σ :=
  match onChange with
  | some cb => cb files w
  | none => w

/-- The handler `onDrop` of `FileSubmission`. -/
def onDrop {σ : Type} (heap : Heap) (onChange : OnChange σ) (st : Widget σ)
    (acceptedFiles : List FileRef) : Widget σ :=
  let newFilenames := newSet (acceptedFiles.map fun f => (heap f).name)
  let acceptedFiles :=
    (st.files.filter fun f => !has newFilenames (heap f).name) ++ acceptedFiles
  ⟨acceptedFiles, fire onChange acceptedFiles st.world⟩

/-- The handler `removeFile` of `FileSubmission`. -/
def removeFile {σ : Type} (onChange : OnChange σ) (st : Widget σ) (file : FileRef) :
    Widget σ :=
  let newFiles := st.files.filter fun f => f != file
  ⟨newFiles, fire onChange newFiles st.world⟩

/-- A user action on the widget. -/
inductive Action where
  | drop (acceptedFiles : List FileRef)
  | remove (file : FileRef)

/-- One user action, handled by the handler of the current render. -/
def step {σ : Type} (heap : Heap) (onChange : OnChange σ) (st : Widget σ) :
    Action → Widget σ
  | Action.drop acceptedFiles => onDrop heap onChange st acceptedFiles
  | Action.remove file => removeFile onChange st file

/-- The widget after a sequence of user actions, from its first render. -/
def run {σ : Type} (heap : Heap) (onChange : OnChange σ) (w : σ) (actions : List Action) :
    Widget σ :=
  actions.foldl (step heap onChange) (Widget.init w)

/-- The prop `key={file.name}` of the preview cards, in rendering order. -/
def cardKeys (heap : Heap) (files : List FileRef) : List String :=
  files.map fun file => (heap file).name

/-- A callback that records each invocation's argument. -/
def record : List FileRef → List (List FileRef) → List (List FileRef) :=
  fun files log => log ++ [files]

/-! ## The heading override -/

/-- The heading element `.management-page header h2`, as far as the component
touches it. -/
structure Heading where
  textContent : String
deriving DecidableEq

/-- The effect of `ManagementPageTitle`: it returns the element after the effect
and the cleanup function the effect returned. -/
def ManagementPageTitle (title : String) (elem : Heading) : Heading × (Heading → Heading) :=
  let oldTitle := elem.textContent
  (⟨title⟩, fun _ => ⟨oldTitle⟩)

/-- A mounted `ManagementPageTitle`: the dependency `title` of its last effect,
and the cleanup of that effect. -/
structure Mounted where
  title : String
  cleanup : Heading → Heading

/-- Mounting the component runs its effect. -/
def mount (title : String) (elem : Heading) : Heading × Mounted :=
  let r := ManagementPageTitle title elem
  (r.1, ⟨title, r.2⟩)

/-- A re-render with the prop `title`: when the dependency changed, the previous
cleanup runs and then the effect; otherwise nothing runs. -/
def rerender (s : Heading × Mounted) (title : String) : Heading × Mounted :=
  if title = s.2.title then s else mount title (s.2.cleanup s.1)

/-- Unmounting the component runs the cleanup of its last effect. -/
def unmount (s : Heading × Mounted) : Heading := s.2.cleanup s.1

/-- Several components mounted one after another on the same heading; the
cleanups are kept innermost first. -/
def mountAll (elem : Heading) : List String → Heading × List (Heading → Heading)
  | [] => (elem, [])
  | title :: rest =>
    let r := ManagementPageTitle title elem
    let s := mountAll r.1 rest
    (s.1, s.2 ++ [r.2])

/-- Running the first `k` cleanups of a stack, innermost first. -/
def unmountSome : Nat → Heading × List (Heading → Heading) → Heading × List (Heading → Heading)
  | 0, s => s
  | _ + 1, (elem, []) => (elem, [])
  | k + 1, (elem, c :: cs) => unmountSome k (c elem, cs)

/-- The function that returns the heading with text `text`, whatever the
heading it is given: the shape of every cleanup of `ManagementPageTitle`. -/
def constant (text : String) : Heading → Heading := fun _ => ⟨text⟩

/-- The state of a mounted component whose override started on `elem`: the
heading shows the title of the last effect, whose cleanup restores `elem`. -/
def Overrides (elem : Heading) (latest : String) (s : Heading × Mounted) : Prop :=
  s.1.textContent = latest ∧ s.2.title = latest ∧ ∀ e, s.2.cleanup e = elem

/-! ## The size label -/

/-- Auxiliary for `ilog2`, by halving with fuel. -/
def ilog2Aux : Nat → Nat → Nat
  | 0, _ => 0
  | fuel + 1, n => if n < 2 then 0 else 1 + ilog2Aux fuel (n / 2)

/-- The position of the leading bit: `2 ^ ilog2 n ≤ n < 2 ^ (ilog2 n + 1)` for
`0 < n`. -/
def ilog2 (n : Nat) : Nat := ilog2Aux n n

/-- A finite double that is not negative, as the fraction `num / 2 ^ sh`. -/
structure Dyadic where
  num : Nat
  sh : Nat
deriving DecidableEq

/-- The integer nearest to `N / D`, the even one on a tie. -/
def roundHalfEven (N D : Nat) : Nat :=
  let a := N / D
  let r := N % D
  if 2 * r < D then a else if D < 2 * r then a + 1 else if a % 2 = 0 then a else a + 1

/-- Whether the integer `n` is a JavaScript number: it has at most 53
significant bits. -/
def isNumber (n : Nat) : Bool := n % 2 ^ (ilog2 n - 52) == 0

/-- The JavaScript operator `/` on two integer numbers `a ≥ b > 0`: the quotient
rounded to the nearest double (53 significant bits, ties to even). With
`e = ilog2 (a / b)` the quotient lies in `[2 ^ e, 2 ^ (e + 1))`, where the
doubles are the multiples of `2 ^ (e - 52)`. -/
def divNumber (a b : Nat) : Dyadic :=
  let e := ilog2 (a / b)
  if e ≤ 52 then ⟨roundHalfEven (a * 2 ^ (52 - e)) b, 52 - e⟩
  else ⟨roundHalfEven a (b * 2 ^ (e - 52)) * 2 ^ (e - 52), 0⟩

/-- The integer `n` of `Number.prototype.toFixed(2)`: the one for which
`n / 100 - x` is as close to zero as possible, the larger one if there are
two. -/
def hundredths (x : Dyadic) : Nat := (200 * x.num + 2 ^ x.sh) / 2 ^ (x.sh + 1)

/-- The decimal numeral of `n / 100` with two digits after the point. -/
def formatHundredths (n : Nat) : String :=
  toString (n / 100) ++ "." ++ toString (n % 100 / 10) ++ toString (n % 10)

/-- The method call `x.toFixed(2)`, for `x < 10 ^ 21`. -/
def toFixed2 (x : Dyadic) : String := formatHundredths (hundredths x)

/-- The prop `value` of a `Param` element: a number or a string. -/
inductive ParamValue where
  | number (n : Nat)
  | string (s : String)
deriving DecidableEq

/-- The element `Translate` with a `Param` named `size` followed by a unit:
the value of the parameter and the text that follows it. -/
structure Translated where
  size : ParamValue
  text : String
deriving DecidableEq

/-- The function `humanReadableBytes` of `FileSubmission.jsx`. -/
def humanReadableBytes (bytes : Nat) : Translated :=
  let kiloBytes := 1000
  let megaBytes := 1000 * kiloBytes
  if bytes < kiloBytes then
    ⟨ParamValue.number bytes, " bytes"⟩
  else if bytes < megaBytes then
    ⟨ParamValue.string (toFixed2 (divNumber bytes kiloBytes)), " kB"⟩
  else
    ⟨ParamValue.string (toFixed2 (divNumber bytes megaBytes)), " MB"⟩

/-- Modelled from the spec: the components `Translate` and `Param` of
`indico/react/i18n` are not among the sources; in the source language the
label reads as the size followed by the unit ("999 bytes", "1.00 kB"). -/
def shown (t : Translated) : String :=
  match t.size with
  | ParamValue.number n => toString n ++ t.text
  | ParamValue.string s => s ++ t.text

/-- The value of a double as a rational number. -/
def Dyadic.toRat (x : Dyadic) : ℚ := (x.num : ℚ) / (2 : ℚ) ^ x.sh

/-- The rules by which a reader may resolve "rounded to 2 decimals" when the
quotient lies exactly midway between two values: the upper value, the lower
value, or the one with an even last digit. -/
inductive TieRule where
  | up
  | down
  | even
deriving DecidableEq

/-- Following the words of the specification, not the code: `n / d` rounded to 2
decimals, as a number of hundredths, an exact tie resolved by `rule`. -/
def roundedHundredths (rule : TieRule) (n d : Nat) : Nat :=
  let a := 100 * n / d
  let r := 100 * n % d
  if 2 * r < d then a
  else if d < 2 * r then a + 1
  else
    match rule with
    | TieRule.up => a + 1
    | TieRule.down => a
    | TieRule.even => if a % 2 = 0 then a else a + 1

/-- The heap of the examples: references 0 and 1 are two files named `a.pdf`
of different sizes, every other reference `r` is a file named `f<r>.pdf`. -/
def exampleHeap : Heap := fun r =>
  if r = 0 then ⟨"a.pdf", 10⟩
  else if r = 1 then ⟨"a.pdf", 2500000⟩
  else ⟨"f" ++ toString r ++ ".pdf", 1000 * r⟩

/-! ## Properties of the selection list -/

theorem has_newSet (xs : List String) (x : String) : has (newSet xs) x = decide (x ∈ xs) := by
  simp [has, newSet]

theorem onDrop_files_eq {σ : Type} (heap : Heap) (onChange : OnChange σ) (st : Widget σ)
    (acceptedFiles : List FileRef) :
    (onDrop heap onChange st acceptedFiles).files =
      st.files.filter (fun f => decide (∀ g ∈ acceptedFiles, (heap g).name ≠ (heap f).name))
        ++ acceptedFiles := by
  unfold onDrop
  simp only [has_newSet]
  congr 1
  apply List.filter_congr
  intro f _
  by_cases hf : (heap f).name ∈ List.map (fun g => (heap g).name) acceptedFiles
  · have : ¬ ∀ g ∈ acceptedFiles, (heap g).name ≠ (heap f).name := by
      obtain ⟨g, hg, hgf⟩ := List.mem_map.mp hf
      exact fun hall => hall g hg hgf
    simp [hf, this]
  · have : ∀ g ∈ acceptedFiles, (heap g).name ≠ (heap f).name :=
      fun g hg hgf => hf (List.mem_map.mpr ⟨g, hg, hgf⟩)
    simp only [hf, decide_False, Bool.not_false]
    exact (decide_eq_true this).symm

theorem removeFile_files_eq {σ : Type} (onChange : OnChange σ) (st : Widget σ)
    (file : FileRef) :
    (removeFile onChange st file).files = st.files.filter (fun f => decide (f ≠ file)) := by
  unfold removeFile
  simp only
  apply List.filter_congr
  intro f _
  by_cases hf : f = file <;> simp [hf]

/-- C1: after `onDrop` the selection is the held files whose name equals no
name in the batch, in their original order, followed by the whole batch in
arrival order. -/
theorem onDrop_selection {σ : Type} (heap : Heap) (onChange : OnChange σ) (st : Widget σ)
    (acceptedFiles : List FileRef) :
    (onDrop heap onChange st acceptedFiles).files =
      st.files.filter (fun f => decide (∀ g ∈ acceptedFiles, (heap g).name ≠ (heap f).name))
        ++ acceptedFiles :=
  onDrop_files_eq heap onChange st acceptedFiles

/-- C2: when no name in the accepted batch equals the name of a held file,
`onDrop` yields the existing selection, unchanged and in order, followed by the
batch in arrival order. -/
theorem onDrop_fresh_names {σ : Type} (heap : Heap) (onChange : OnChange σ) (st : Widget σ)
    (acceptedFiles : List FileRef)
    (h : ∀ f ∈ st.files, ∀ g ∈ acceptedFiles, (heap g).name ≠ (heap f).name) :
    (onDrop heap onChange st acceptedFiles).files = st.files ++ acceptedFiles := by
  rw [onDrop_files_eq]
  congr 1
  rw [List.filter_eq_self]
  intro f hf
  simpa using h f hf

theorem onDrop_fresh_names_witness :
    (∀ f ∈ [0, 5], ∀ g ∈ [2, 3], (exampleHeap g).name ≠ (exampleHeap f).name) ∧
      (onDrop exampleHeap (none : OnChange Unit) ⟨[0, 5], ()⟩ [2, 3]).files
        = [0, 5] ++ [2, 3] :=
  ⟨by decide, onDrop_fresh_names exampleHeap none ⟨[0, 5], ()⟩ [2, 3] (by decide)⟩

/-- C3 fails as stated: with `a.pdf` held and the batch `[a.pdf, f2.pdf]`
accepted, the new `a.pdf` matches the held file by name, yet it is not the last
entry of the resulting list (the whole batch is appended, in arrival order). -/
theorem onDrop_match_not_last :
    1 ∈ [1, 2] ∧ 0 ∈ [0] ∧ (exampleHeap 1).name = (exampleHeap 0).name ∧
      (onDrop exampleHeap (none : OnChange Unit) ⟨[0], ()⟩ [1, 2]).files = [1, 2] ∧
      (onDrop exampleHeap (none : OnChange Unit) ⟨[0], ()⟩ [1, 2]).files.getLast? ≠ some 1 := by
  decide

/-- C3 (amended): when an accepted file `g` has the name of a held file, the
selection after `onDrop` is a part `kept` of the held files, in their order,
followed by the whole batch; no file of `kept` has the name of `g`, so at least
one held file was evicted; `g` sits in the appended batch and is the last entry
when it is the last file of the batch; and the result depends on the file
objects through their names only. -/
theorem onDrop_same_name {σ : Type} (heap : Heap) (onChange : OnChange σ) (st : Widget σ)
    (acceptedFiles : List FileRef) (g : FileRef) (hg : g ∈ acceptedFiles)
    (hm : ∃ f ∈ st.files, (heap f).name = (heap g).name) :
    ∃ kept : List FileRef,
      (onDrop heap onChange st acceptedFiles).files = kept ++ acceptedFiles ∧
      kept.Sublist st.files ∧
      (∀ f ∈ kept, (heap f).name ≠ (heap g).name) ∧
      kept.length < st.files.length ∧
      (acceptedFiles.getLast? = some g →
        (onDrop heap onChange st acceptedFiles).files.getLast? = some g) ∧
      (∀ heap2 : Heap, (∀ r, (heap2 r).name = (heap r).name) →
        (onDrop heap2 onChange st acceptedFiles).files
          = (onDrop heap onChange st acceptedFiles).files) := by
  refine ⟨st.files.filter
    (fun f => decide (∀ a ∈ acceptedFiles, (heap a).name ≠ (heap f).name)),
    onDrop_files_eq heap onChange st acceptedFiles, List.filter_sublist _, ?_, ?_, ?_, ?_⟩
  · intro f hf
    have h := (List.mem_filter.mp hf).2
    exact fun e => (of_decide_eq_true h) g hg e.symm
  · rw [List.length_filter_lt_length_iff_exists]
    obtain ⟨f, hf, hfg⟩ := hm
    refine ⟨f, hf, ?_⟩
    intro h
    exact (of_decide_eq_true h) g hg hfg.symm
  · intro hlast
    rw [onDrop_files_eq, List.getLast?_append_of_ne_nil _ (List.ne_nil_of_mem hg)]
    exact hlast
  · intro heap2 hnames
    rw [onDrop_files_eq, onDrop_files_eq]
    simp only [hnames]

theorem onDrop_same_name_witness :
    (1 ∈ [2, 1] ∧ ∃ f ∈ [0, 5], (exampleHeap f).name = (exampleHeap 1).name) ∧
      ∃ kept : List FileRef,
        (onDrop exampleHeap (none : OnChange Unit) ⟨[0, 5], ()⟩ [2, 1]).files
          = kept ++ [2, 1] ∧
        kept.Sublist [0, 5] ∧
        (∀ f ∈ kept, (exampleHeap f).name ≠ (exampleHeap 1).name) ∧
        kept.length < [0, 5].length ∧
        ([2, 1].getLast? = some 1 →
          (onDrop exampleHeap (none : OnChange Unit) ⟨[0, 5], ()⟩ [2, 1]).files.getLast?
            = some 1) ∧
        (∀ heap2 : Heap, (∀ r, (heap2 r).name = (exampleHeap r).name) →
          (onDrop heap2 (none : OnChange Unit) ⟨[0, 5], ()⟩ [2, 1]).files
            = (onDrop exampleHeap (none : OnChange Unit) ⟨[0, 5], ()⟩ [2, 1]).files) :=
  ⟨⟨by decide, by decide⟩,
    onDrop_same_name exampleHeap none ⟨[0, 5], ()⟩ [2, 1] 1 (by decide) (by decide)⟩

/-- For a file reference held exactly once, `removeFile` yields the selection
without that one entry, one entry fewer, the others in their original order;
every held file with another reference stays, also one with the same name. -/
theorem removeFile_held_once {σ : Type} (onChange : OnChange σ) (st : Widget σ)
    (file : FileRef) (h : st.files.count file = 1) :
    (∃ before after : List FileRef,
      st.files = before ++ file :: after ∧
      (removeFile onChange st file).files = before ++ after) ∧
    (removeFile onChange st file).files.length + 1 = st.files.length ∧
    (∀ (heap : Heap), ∀ g ∈ st.files, g ≠ file → (heap g).name = (heap file).name →
      g ∈ (removeFile onChange st file).files) := by
  have hmem : file ∈ st.files := by
    rw [← List.count_pos_iff]; omega
  obtain ⟨s, t, hst⟩ := List.append_of_mem hmem
  have hc : List.count file s = 0 ∧ List.count file t = 0 := by
    rw [hst, List.count_append, List.count_cons_self] at h
    omega
  have hs : s.filter (fun f => decide (f ≠ file)) = s := by
    rw [List.filter_eq_self]
    intro a ha
    have : file ∉ s := List.count_eq_zero.mp hc.1
    exact decide_eq_true (fun e => this (e ▸ ha))
  have ht : t.filter (fun f => decide (f ≠ file)) = t := by
    rw [List.filter_eq_self]
    intro a ha
    have : file ∉ t := List.count_eq_zero.mp hc.2
    exact decide_eq_true (fun e => this (e ▸ ha))
  have hres : (removeFile onChange st file).files = s ++ t := by
    rw [removeFile_files_eq, hst, List.filter_append, List.filter_cons, hs, ht]
    simp
  refine ⟨⟨s, t, hst, hres⟩, ?_, ?_⟩
  · rw [hres, hst]; simp; omega
  · intro _ g hgm hne _
    rw [removeFile_files_eq]
    exact List.mem_filter.mpr ⟨hgm, decide_eq_true hne⟩

theorem onDrop_nodup {σ : Type} (heap : Heap) (onChange : OnChange σ) (st : Widget σ)
    (acceptedFiles : List FileRef) (hst : st.files.Nodup) (hacc : acceptedFiles.Nodup) :
    (onDrop heap onChange st acceptedFiles).files.Nodup := by
  rw [onDrop_files_eq, List.nodup_append]
  refine ⟨List.Nodup.sublist (List.filter_sublist _) hst, hacc, ?_⟩
  intro x hx hx2
  exact (of_decide_eq_true (List.mem_filter.mp hx).2) x hx2 rfl

theorem removeFile_nodup {σ : Type} (onChange : OnChange σ) (st : Widget σ)
    (file : FileRef) (hst : st.files.Nodup) : (removeFile onChange st file).files.Nodup := by
  rw [removeFile_files_eq]
  exact List.Nodup.sublist (List.filter_sublist _) hst

theorem foldl_step_nodup {σ : Type} (heap : Heap) (onChange : OnChange σ)
    (actions : List Action) :
    ∀ st : Widget σ, st.files.Nodup →
      (∀ batch, Action.drop batch ∈ actions → batch.Nodup) →
      (actions.foldl (step heap onChange) st).files.Nodup := by
  induction actions with
  | nil => intro st hst _; exact hst
  | cons a rest ih =>
    intro st hst hb
    rw [List.foldl_cons]
    apply ih
    · cases a with
      | drop batch =>
        exact onDrop_nodup heap onChange st batch hst (hb batch (List.mem_cons_self _ _))
      | remove file => exact removeFile_nodup onChange st file hst
    · intro batch hmem
      exact hb batch (List.mem_cons_of_mem _ hmem)

/-- In every selection the widget reaches from its first render, when no
accepted batch holds the same `File` object twice, each file object is held
once. -/
theorem run_nodup {σ : Type} (heap : Heap) (onChange : OnChange σ) (w : σ)
    (actions : List Action) (hb : ∀ batch, Action.drop batch ∈ actions → batch.Nodup) :
    (run heap onChange w actions).files.Nodup :=
  foldl_step_nodup heap onChange actions (Widget.init w) List.nodup_nil hb

/-- C4: for every selection the widget reaches (from its first render, by drops
of batches of distinct `File` objects and by removals) and every file held in
it, `removeFile` yields the selection minus exactly that entry, one entry
fewer, the other entries in their original order; the comparison is by
reference, so another held file with the same name is not removed. -/
theorem removeFile_selection {σ : Type} (heap : Heap) (onChange : OnChange σ) (w : σ)
    (actions : List Action) (file : FileRef)
    (hb : ∀ batch, Action.drop batch ∈ actions → batch.Nodup)
    (hf : file ∈ (run heap onChange w actions).files) :
    (∃ before after : List FileRef,
      (run heap onChange w actions).files = before ++ file :: after ∧
      file ∉ before ∧ file ∉ after ∧
      (removeFile onChange (run heap onChange w actions) file).files = before ++ after) ∧
    (removeFile onChange (run heap onChange w actions) file).files.length + 1
      = (run heap onChange w actions).files.length ∧
    (∀ g ∈ (run heap onChange w actions).files, g ≠ file →
      (heap g).name = (heap file).name →
      g ∈ (removeFile onChange (run heap onChange w actions) file).files) := by
  have hnd := run_nodup heap onChange w actions hb
  have hone := removeFile_held_once onChange (run heap onChange w actions) file
    (List.count_eq_one_of_mem hnd hf)
  obtain ⟨⟨s, t, hst, hres⟩, hlen, hkeep⟩ := hone
  refine ⟨⟨s, t, hst, ?_, ?_, hres⟩, hlen, hkeep heap⟩
  · intro hs
    rw [hst] at hnd
    have h1 := (List.nodup_append.mp hnd).2.2
    exact h1 hs (List.mem_cons_self _ _)
  · intro ht
    rw [hst] at hnd
    have h1 := (List.nodup_append.mp hnd).2.1
    exact (List.nodup_cons.mp h1).1 ht

theorem removeFile_selection_witness :
    ((∀ batch, Action.drop batch ∈ [Action.drop [5, 0, 1], Action.drop [2]] →
        batch.Nodup) ∧
      1 ∈ (run exampleHeap (none : OnChange Unit) ()
        [Action.drop [5, 0, 1], Action.drop [2]]).files) ∧
    ((∃ before after : List FileRef,
      (run exampleHeap (none : OnChange Unit) ()
        [Action.drop [5, 0, 1], Action.drop [2]]).files = before ++ 1 :: after ∧
      1 ∉ before ∧ 1 ∉ after ∧
      (removeFile none (run exampleHeap (none : OnChange Unit) ()
        [Action.drop [5, 0, 1], Action.drop [2]]) 1).files = before ++ after) ∧
    (removeFile none (run exampleHeap (none : OnChange Unit) ()
        [Action.drop [5, 0, 1], Action.drop [2]]) 1).files.length + 1
      = (run exampleHeap (none : OnChange Unit) ()
        [Action.drop [5, 0, 1], Action.drop [2]]).files.length ∧
    (∀ g ∈ (run exampleHeap (none : OnChange Unit) ()
        [Action.drop [5, 0, 1], Action.drop [2]]).files, g ≠ 1 →
      (exampleHeap g).name = (exampleHeap 1).name →
      g ∈ (removeFile none (run exampleHeap (none : OnChange Unit) ()
        [Action.drop [5, 0, 1], Action.drop [2]]) 1).files)) :=
  ⟨⟨by
      intro batch hb
      simp only [List.mem_cons, Action.drop.injEq, List.mem_singleton, List.not_mem_nil,
        or_false] at hb
      rcases hb with rfl | rfl <;> decide, by decide⟩,
    removeFile_selection exampleHeap none () [Action.drop [5, 0, 1], Action.drop [2]] 1
      (by
        intro batch hb
        simp only [List.mem_cons, Action.drop.injEq, List.mem_singleton, List.not_mem_nil,
          or_false] at hb
        rcases hb with rfl | rfl <;> decide)
      (by decide)⟩

/-- C8: on every accepted drop and every removal a configured `onChange` is
applied exactly once, to the new selection, which is the list that becomes the
held state (a recording callback grows by exactly that one entry); without a
callback the world is untouched and the held state is the same new selection. -/
theorem onChange_fired_once {σ : Type} (heap : Heap) (cb : List FileRef → σ → σ)
    (st : Widget σ) (acceptedFiles : List FileRef) (file : FileRef)
    (held : List FileRef) (log : List (List FileRef)) :
    (onDrop heap (some cb) st acceptedFiles).world
        = cb (onDrop heap (some cb) st acceptedFiles).files st.world ∧
      (removeFile (some cb) st file).world
        = cb (removeFile (some cb) st file).files st.world ∧
      (onDrop heap (some record) ⟨held, log⟩ acceptedFiles).world
        = log ++ [(onDrop heap (some record) ⟨held, log⟩ acceptedFiles).files] ∧
      (removeFile (some record) ⟨held, log⟩ file).world
        = log ++ [(removeFile (some record) ⟨held, log⟩ file).files] ∧
      (onDrop heap none st acceptedFiles).world = st.world ∧
      (removeFile none st file).world = st.world ∧
      (onDrop heap none st acceptedFiles).files
        = (onDrop heap (some cb) st acceptedFiles).files ∧
      (removeFile none st file).files = (removeFile (some cb) st file).files :=
  ⟨rfl, rfl, rfl, rfl, rfl, rfl, rfl, rfl⟩

theorem onDrop_keys_nodup {σ : Type} (heap : Heap) (onChange : OnChange σ) (st : Widget σ)
    (acceptedFiles : List FileRef) (hst : (cardKeys heap st.files).Nodup)
    (hacc : (cardKeys heap acceptedFiles).Nodup) :
    (cardKeys heap (onDrop heap onChange st acceptedFiles).files).Nodup := by
  rw [onDrop_files_eq]
  unfold cardKeys at *
  rw [List.map_append, List.nodup_append]
  refine ⟨List.Nodup.sublist (List.Sublist.map _ (List.filter_sublist _)) hst, hacc, ?_⟩
  intro x hx hx2
  obtain ⟨f, hf, rfl⟩ := List.mem_map.mp hx
  obtain ⟨g, hg, hgf⟩ := List.mem_map.mp hx2
  exact (of_decide_eq_true (List.mem_filter.mp hf).2) g hg hgf

theorem removeFile_keys_nodup {σ : Type} (heap : Heap) (onChange : OnChange σ)
    (st : Widget σ) (file : FileRef) (hst : (cardKeys heap st.files).Nodup) :
    (cardKeys heap (removeFile onChange st file).files).Nodup := by
  rw [removeFile_files_eq]
  exact List.Nodup.sublist (List.Sublist.map _ (List.filter_sublist _)) hst

theorem foldl_step_keys_nodup {σ : Type} (heap : Heap) (onChange : OnChange σ)
    (actions : List Action) :
    ∀ st : Widget σ, (cardKeys heap st.files).Nodup →
      (∀ batch, Action.drop batch ∈ actions → (cardKeys heap batch).Nodup) →
      (cardKeys heap (actions.foldl (step heap onChange) st).files).Nodup := by
  induction actions with
  | nil => intro st hst _; exact hst
  | cons a rest ih =>
    intro st hst hb
    rw [List.foldl_cons]
    apply ih
    · cases a with
      | drop batch =>
        exact onDrop_keys_nodup heap onChange st batch hst
          (hb batch (List.mem_cons_self _ _))
      | remove file => exact removeFile_keys_nodup heap onChange st file hst
    · intro batch hmem
      exact hb batch (List.mem_cons_of_mem _ hmem)

/-- C9: from the empty selection, after any sequence of `onDrop` and
`removeFile` in which every accepted batch has pairwise distinct names, no two
held files share a name, so the keys of the preview cards are pairwise
distinct. -/
theorem run_keys_nodup {σ : Type} (heap : Heap) (onChange : OnChange σ) (w : σ)
    (actions : List Action)
    (h : ∀ batch, Action.drop batch ∈ actions → (cardKeys heap batch).Nodup) :
    (cardKeys heap (run heap onChange w actions).files).Nodup :=
  foldl_step_keys_nodup heap onChange actions (Widget.init w) List.nodup_nil h

theorem run_keys_nodup_witness :
    (∀ batch, Action.drop batch ∈ [Action.drop [0, 2], Action.drop [1, 3], Action.remove 2] →
        (cardKeys exampleHeap batch).Nodup) ∧
      (cardKeys exampleHeap (run exampleHeap (none : OnChange Unit) ()
        [Action.drop [0, 2], Action.drop [1, 3], Action.remove 2]).files).Nodup :=
  ⟨by
      intro batch hb
      simp only [List.mem_cons, Action.drop.injEq, List.mem_singleton, List.not_mem_nil,
        or_false, reduceCtorEq] at hb
      rcases hb with rfl | rfl <;> decide,
    run_keys_nodup exampleHeap none () [Action.drop [0, 2], Action.drop [1, 3], Action.remove 2]
      (by
        intro batch hb
        simp only [List.mem_cons, Action.drop.injEq, List.mem_singleton, List.not_mem_nil,
          or_false, reduceCtorEq] at hb
        rcases hb with rfl | rfl <;> decide)⟩

/-! ## Properties of the heading override -/

/-- C6: the effect of `ManagementPageTitle` sets the heading text to the title,
and its cleanup, run afterwards, restores the original heading text exactly. -/
theorem effect_then_cleanup (title : String) (elem : Heading) :
    (ManagementPageTitle title elem).1.textContent = title ∧
      ((ManagementPageTitle title elem).2 (ManagementPageTitle title elem).1).textContent
        = elem.textContent ∧
      (mount title elem).1.textContent = title ∧
      unmount (mount title elem) = elem :=
  ⟨rfl, rfl, rfl, rfl⟩

theorem overrides_mount (title : String) (elem : Heading) :
    Overrides elem title (mount title elem) :=
  ⟨rfl, rfl, fun _ => rfl⟩

theorem overrides_rerender (elem : Heading) (latest title : String) (s : Heading × Mounted)
    (h : Overrides elem latest s) : Overrides elem title (rerender s title) := by
  unfold rerender
  split_ifs with ht
  · obtain ⟨h1, h2, h3⟩ := h
    exact ⟨by rw [h1, ht, h2], by rw [ht], h3⟩
  · rw [h.2.2 s.1]
    exact overrides_mount title elem

theorem overrides_foldl (elem : Heading) (titles : List String) :
    ∀ (latest : String) (s : Heading × Mounted), Overrides elem latest s →
      Overrides elem ((latest :: titles).getLast (List.cons_ne_nil _ _))
        (titles.foldl rerender s) := by
  induction titles with
  | nil => intro latest s h; exact h
  | cons t rest ih =>
    intro latest s h
    rw [List.foldl_cons, List.getLast_cons (List.cons_ne_nil _ _)]
    exact ih t (rerender s t) (overrides_rerender elem latest t s h)

/-- C7: for one mounted `ManagementPageTitle`, after every sequence of title
changes the heading shows the latest title, and the final unmount restores the
original heading, not an intermediate title. -/
theorem rerender_latest_then_restore (elem : Heading) (title : String)
    (titles : List String) :
    (∀ k : Nat, ((titles.take k).foldl rerender (mount title elem)).1.textContent
        = (title :: titles.take k).getLast (List.cons_ne_nil _ _)) ∧
      (titles.foldl rerender (mount title elem)).1.textContent
        = (title :: titles).getLast (List.cons_ne_nil _ _) ∧
      unmount (titles.foldl rerender (mount title elem)) = elem := by
  have h := overrides_foldl elem titles title (mount title elem) (overrides_mount title elem)
  exact ⟨fun k => (overrides_foldl elem (titles.take k) title (mount title elem)
    (overrides_mount title elem)).1, h.1, h.2.2 _⟩

theorem mountAll_eq (titles : List String) :
    ∀ elem : Heading, mountAll elem titles =
      (⟨(elem.textContent :: titles).getLast (List.cons_ne_nil _ _)⟩,
        ((elem.textContent :: titles).dropLast.map constant).reverse) := by
  induction titles with
  | nil => intro elem; rfl
  | cons t rest ih =>
    intro elem
    unfold mountAll
    simp only [ManagementPageTitle, ih]
    rw [List.getLast_cons (List.cons_ne_nil _ _)]
    simp only [List.dropLast, List.map_cons, List.reverse_cons]
    rfl

theorem unmountSome_constant (k : Nat) :
    ∀ (elem : Heading) (texts : List String),
      (elem.textContent :: texts)[min k texts.length]?
        = some (unmountSome k (elem, texts.map constant)).1.textContent := by
  induction k with
  | zero => intro elem texts; simp [unmountSome]
  | succ k ih =>
    intro elem texts
    cases texts with
    | nil => simp [unmountSome]
    | cons t rest =>
      have h := ih (constant t elem) rest
      simp only [List.map_cons, unmountSome, List.length_cons, Nat.succ_min_succ,
        List.getElem?_cons_succ]
      exact h

theorem unmountSome_mountAll_index (elem : Heading) (titles : List String) (k : Nat) :
    (elem.textContent :: titles)[titles.length - k]?
      = some (unmountSome k (mountAll elem titles)).1.textContent := by
  have h := unmountSome_constant k
    ⟨(elem.textContent :: titles).getLast (List.cons_ne_nil _ _)⟩
    (elem.textContent :: titles).dropLast.reverse
  rw [mountAll_eq, ← List.map_reverse, ← h]
  have hrev : (elem.textContent :: titles).getLast (List.cons_ne_nil _ _)
      :: (elem.textContent :: titles).dropLast.reverse
      = (elem.textContent :: titles).reverse := by
    conv_rhs => rw [← List.dropLast_append_getLast (List.cons_ne_nil elem.textContent titles)]
    simp
  simp only [hrev, List.length_reverse, List.length_dropLast, List.length_cons,
    Nat.add_sub_cancel]
  rw [List.getElem?_reverse (by simp)]
  congr 1
  simp only [List.length_cons]
  omega

/-- C10: after mounting a finite sequence of `ManagementPageTitle` effects on
one heading and running `k` cleanups in the reverse order of mounting, the
heading is the one that mounting only the overrides still mounted gives: it
shows the title of the innermost override still mounted (entry
`titles.length - k` of the original text followed by the titles), or the
original text when none is; running all cleanups restores the original
heading. -/
theorem nested_unmount (elem : Heading) (titles : List String) (k : Nat) :
    (unmountSome k (mountAll elem titles)).1
        = (mountAll elem (titles.take (titles.length - k))).1 ∧
      (elem.textContent :: titles)[titles.length - k]?
        = some (unmountSome k (mountAll elem titles)).1.textContent ∧
      (unmountSome titles.length (mountAll elem titles)).1 = elem := by
  have heq : ∀ a b : Heading, a.textContent = b.textContent → a = b := by
    intro a b hab
    cases a; cases b; simp only at hab; rw [hab]
  refine ⟨?_, unmountSome_mountAll_index elem titles k, ?_⟩
  · apply heq
    have h1 := unmountSome_mountAll_index elem titles k
    have h2 := unmountSome_mountAll_index elem (titles.take (titles.length - k)) 0
    have hlen : (titles.take (titles.length - k)).length = titles.length - k := by
      rw [List.length_take]; omega
    have htake : elem.textContent :: titles.take (titles.length - k)
        = (elem.textContent :: titles).take (titles.length - k + 1) := rfl
    rw [Nat.sub_zero, hlen, htake, List.getElem?_take_of_lt (Nat.lt_succ_self _), h1] at h2
    simp only [unmountSome, Option.some.injEq] at h2
    exact h2
  · apply heq
    have h := unmountSome_mountAll_index elem titles titles.length
    simp only [Nat.sub_self, List.getElem?_cons_zero, Option.some.injEq] at h
    exact h.symm

/-! ## Properties of the size label -/

theorem roundHalfEven_spec (N D : Nat) (hD : 0 < D) :
    2 * (roundHalfEven N D * D) ≤ 2 * N + D ∧ 2 * N ≤ 2 * (roundHalfEven N D * D) + D := by
  have h1 := Nat.div_add_mod N D
  have h2 := Nat.mod_lt N hD
  have h3 : (N / D + 1) * D = D * (N / D) + D := by ring
  have h4 : N / D * D = D * (N / D) := by ring
  unfold roundHalfEven
  simp only
  split_ifs <;> first | (rw [h3]; omega) | (rw [h4]; omega)

theorem hundredths_spec (x : Dyadic) :
    2 * (2 ^ x.sh * hundredths x) ≤ 200 * x.num + 2 ^ x.sh ∧
      200 * x.num + 2 ^ x.sh < 2 * (2 ^ x.sh * hundredths x) + 2 * 2 ^ x.sh := by
  have hp : 0 < 2 ^ (x.sh + 1) := Nat.pow_pos (by norm_num)
  have h1 := Nat.div_add_mod (200 * x.num + 2 ^ x.sh) (2 ^ (x.sh + 1))
  have h2 := Nat.mod_lt (200 * x.num + 2 ^ x.sh) hp
  have h3 : 2 ^ (x.sh + 1) * ((200 * x.num + 2 ^ x.sh) / 2 ^ (x.sh + 1)) =
      2 * (2 ^ x.sh * hundredths x) := by
    unfold hundredths; ring
  have h4 : 2 ^ (x.sh + 1) = 2 * 2 ^ x.sh := by ring
  rw [h3] at h1
  rw [h4] at h2
  omega

theorem ilog2Aux_le (fuel : Nat) : ∀ n b : Nat, n < 2 ^ (b + 1) → ilog2Aux fuel n ≤ b := by
  induction fuel with
  | zero => intro n b _; simp [ilog2Aux]
  | succ fuel ih =>
    intro n b h
    unfold ilog2Aux
    split_ifs with h2
    · omega
    · cases b with
      | zero => simp at h; omega
      | succ b =>
        have h3 : n / 2 < 2 ^ (b + 1) := by
          rw [Nat.div_lt_iff_lt_mul (by norm_num)]
          rw [pow_succ] at h; exact h
        have h4 := ih (n / 2) b h3
        omega

theorem ilog2Aux_spec (fuel : Nat) :
    ∀ n : Nat, 0 < n → n ≤ fuel →
      2 ^ ilog2Aux fuel n ≤ n ∧ n < 2 ^ (ilog2Aux fuel n + 1) := by
  induction fuel with
  | zero => intro n h0 h1; omega
  | succ fuel ih =>
    intro n h0 h1
    unfold ilog2Aux
    split_ifs with h2
    · constructor <;> simp <;> omega
    · have h3 := ih (n / 2) (by omega) (by omega)
      have h4 : 2 ^ (1 + ilog2Aux fuel (n / 2)) = 2 * 2 ^ ilog2Aux fuel (n / 2) := by ring
      have h5 : 2 ^ (1 + ilog2Aux fuel (n / 2) + 1)
          = 2 * 2 ^ (ilog2Aux fuel (n / 2) + 1) := by ring
      rw [h4, h5]
      omega

/-- The fuel of `ilog2` suffices: it returns the position of the leading bit. -/
theorem ilog2_spec (n : Nat) (h : 0 < n) : 2 ^ ilog2 n ≤ n ∧ n < 2 ^ (ilog2 n + 1) :=
  ilog2Aux_spec n n h (le_refl n)

/-- The result of `divNumber` is a double: its significand has 53 bits (or is
`2 ^ 53`, the next power of two), and it is within half a unit in the last
place of the quotient. -/
theorem divNumber_double (a b : Nat) (hb : 0 < b) (hab : b ≤ a)
    (he : ilog2 (a / b) ≤ 52) :
    (divNumber a b).sh = 52 - ilog2 (a / b) ∧
      2 ^ 52 ≤ (divNumber a b).num ∧ (divNumber a b).num ≤ 2 ^ 53 ∧
      2 * ((divNumber a b).num * b) ≤ 2 * (a * 2 ^ (divNumber a b).sh) + b ∧
      2 * (a * 2 ^ (divNumber a b).sh) ≤ 2 * ((divNumber a b).num * b) + b := by
  have hdiv : divNumber a b =
      ⟨roundHalfEven (a * 2 ^ (52 - ilog2 (a / b))) b, 52 - ilog2 (a / b)⟩ := by
    unfold divNumber
    simp only [he, if_true]
  have hq : 0 < a / b := Nat.div_pos hab hb
  obtain ⟨h1, h2⟩ := ilog2_spec (a / b) hq
  have h3 : 2 ^ ilog2 (a / b) * b ≤ a := (Nat.le_div_iff_mul_le hb).mp h1
  have h4 : a < 2 ^ (ilog2 (a / b) + 1) * b := (Nat.div_lt_iff_lt_mul hb).mp h2
  have hr := roundHalfEven_spec (a * 2 ^ (52 - ilog2 (a / b))) b hb
  have hp : 2 ^ ilog2 (a / b) * 2 ^ (52 - ilog2 (a / b)) = 2 ^ 52 := by
    rw [← pow_add]; congr 1; omega
  have hp2 : 2 ^ (ilog2 (a / b) + 1) * 2 ^ (52 - ilog2 (a / b)) = 2 ^ 53 := by
    rw [← pow_add]; congr 1; omega
  have h5 : 2 ^ 52 * b ≤ a * 2 ^ (52 - ilog2 (a / b)) := by
    calc 2 ^ 52 * b = 2 ^ ilog2 (a / b) * b * 2 ^ (52 - ilog2 (a / b)) := by
          rw [← hp]; ring
      _ ≤ a * 2 ^ (52 - ilog2 (a / b)) := Nat.mul_le_mul_right _ h3
  have h6 : a * 2 ^ (52 - ilog2 (a / b)) < 2 ^ 53 * b := by
    calc a * 2 ^ (52 - ilog2 (a / b))
        < 2 ^ (ilog2 (a / b) + 1) * b * 2 ^ (52 - ilog2 (a / b)) :=
          Nat.mul_lt_mul_of_pos_right h4 (Nat.pow_pos (by norm_num))
      _ = 2 ^ 53 * b := by rw [← hp2]; ring
  rw [hdiv]
  refine ⟨rfl, ?_, ?_, hr.1, hr.2⟩
  · by_contra hlt
    push_neg at hlt
    have h7 : (roundHalfEven (a * 2 ^ (52 - ilog2 (a / b))) b + 1) * b ≤ 2 ^ 52 * b :=
      Nat.mul_le_mul_right b hlt
    have h8 := hr.2
    nlinarith
  · by_contra hlt
    push_neg at hlt
    have h7 : (2 ^ 53 + 1) * b ≤ roundHalfEven (a * 2 ^ (52 - ilog2 (a / b))) b * b :=
      Nat.mul_le_mul_right b hlt
    have h8 := hr.1
    nlinarith

theorem near_of_bounds (n c P m k : Nat) (hc : 0 < c) (hP : 100 * c < P)
    (hm1 : 2 * (m * (200 * c)) ≤ 2 * (n * P) + 200 * c)
    (hm2 : 2 * (n * P) ≤ 2 * (m * (200 * c)) + 200 * c)
    (hk1 : 2 * (P * k) ≤ 200 * m + P)
    (hk2 : 200 * m + P < 2 * (P * k) + 2 * P) :
    2 * c * k ≤ n + c ∧ n ≤ 2 * c * k + c := by
  constructor
  · by_contra hlt
    push_neg at hlt
    have h1 : P * (n + c + 1) ≤ P * (2 * c * k) := Nat.mul_le_mul_left P hlt
    have h2 : c * (2 * (P * k)) ≤ c * (200 * m + P) := Nat.mul_le_mul_left c hk1
    nlinarith
  · by_contra hlt
    push_neg at hlt
    have h1 : P * (2 * c * k + c + 1) ≤ P * n := Nat.mul_le_mul_left P hlt
    have h2 : c * (200 * m + P) < c * (2 * (P * k) + 2 * P) :=
      Nat.mul_lt_mul_of_pos_left hk2 hc
    nlinarith

/-- The two decimals that `toFixed(2)` gives for the double `n / (200 * c)` are
within half a unit of `n / (2 * c)`, as long as the quotient is below
`2 ^ (b + 1)` and the doubles there are closer than `1 / (100 * c)`. -/
theorem divNumber_near (n c b : Nat) (hc : 0 < c) (hb : b ≤ 52)
    (hq : n / (200 * c) < 2 ^ (b + 1)) (hP : 100 * c < 2 ^ (52 - b)) :
    2 * c * hundredths (divNumber n (200 * c)) ≤ n + c ∧
      n ≤ 2 * c * hundredths (divNumber n (200 * c)) + c := by
  have he : ilog2 (n / (200 * c)) ≤ b := ilog2Aux_le _ _ _ hq
  have he52 : ilog2 (n / (200 * c)) ≤ 52 := le_trans he hb
  have hdiv : divNumber n (200 * c) =
      ⟨roundHalfEven (n * 2 ^ (52 - ilog2 (n / (200 * c)))) (200 * c),
        52 - ilog2 (n / (200 * c))⟩ := by
    unfold divNumber
    simp only [he52, if_true]
  have hpow : 2 ^ (52 - b) ≤ 2 ^ (52 - ilog2 (n / (200 * c))) :=
    Nat.pow_le_pow_right (by norm_num) (by omega)
  have hr := roundHalfEven_spec (n * 2 ^ (52 - ilog2 (n / (200 * c)))) (200 * c) (by omega)
  have hh := hundredths_spec (divNumber n (200 * c))
  rw [hdiv] at hh ⊢
  simp only at hh
  exact near_of_bounds n c _ _ _ hc (lt_of_lt_of_le hP hpow) hr.1 hr.2 hh.1 hh.2

/-- C5 fails as stated. 1005 / 1000 and 1125 / 1000 lie exactly midway between
two values of 2 decimals; the label of 1005 bytes takes the lower one ("1.00
kB") and the label of 1125 bytes the upper one ("1.13 kB"), so the label is
not the quotient rounded to 2 decimals by any one of the rules "ties up",
"ties down", "ties to even". And the byte count 141519586417094992, a
JavaScript number far above `2 ^ 53`, is no tie at all, yet its label
"141519586417.10 MB" is not 141519586417.094992 rounded to 2 decimals. -/
theorem humanReadableBytes_not_rounded :
    (shown (humanReadableBytes 1005) = "1.00 kB" ∧
      humanReadableBytes 1005 ≠ ⟨ParamValue.string
        (formatHundredths (roundedHundredths TieRule.up 1005 1000)), " kB"⟩) ∧
    (shown (humanReadableBytes 1125) = "1.13 kB" ∧
      humanReadableBytes 1125 ≠ ⟨ParamValue.string
        (formatHundredths (roundedHundredths TieRule.down 1125 1000)), " kB"⟩ ∧
      humanReadableBytes 1125 ≠ ⟨ParamValue.string
        (formatHundredths (roundedHundredths TieRule.even 1125 1000)), " kB"⟩) ∧
    (isNumber 141519586417094992 = true ∧
      shown (humanReadableBytes 141519586417094992) = "141519586417.10 MB" ∧
      humanReadableBytes 141519586417094992 ≠ ⟨ParamValue.string
        (formatHundredths (roundedHundredths TieRule.up 141519586417094992 1000000)),
          " MB"⟩ ∧
      humanReadableBytes 141519586417094992 ≠ ⟨ParamValue.string
        (formatHundredths (roundedHundredths TieRule.down 141519586417094992 1000000)),
          " MB"⟩ ∧
      humanReadableBytes 141519586417094992 ≠ ⟨ParamValue.string
        (formatHundredths (roundedHundredths TieRule.even 141519586417094992 1000000)),
          " MB"⟩) := by
  decide

/-- The two decimals of `toFixed(2)` on a tie of the exact quotient `q`: the
upper value is shown only when the double is not below `q`, the lower value
only when the double is below `q`. -/
theorem hundredths_tie (x : Dyadic) (q : ℚ) :
    ((hundredths x : ℚ) / 100 - q = 1 / 200 → q ≤ x.toRat) ∧
      (q - (hundredths x : ℚ) / 100 = 1 / 200 → x.toRat < q) := by
  have hP : (0 : ℚ) < (2 : ℚ) ^ x.sh := by positivity
  obtain ⟨h1, h2⟩ := hundredths_spec x
  have e1 : (2 : ℚ) * ((2 : ℚ) ^ x.sh * (hundredths x : ℚ))
      ≤ 200 * (x.num : ℚ) + (2 : ℚ) ^ x.sh := by exact_mod_cast h1
  have e2 : 200 * (x.num : ℚ) + (2 : ℚ) ^ x.sh
      < 2 * ((2 : ℚ) ^ x.sh * (hundredths x : ℚ)) + 2 * (2 : ℚ) ^ x.sh := by
    exact_mod_cast h2
  unfold Dyadic.toRat
  constructor
  · intro hq
    have hq2 : q = (hundredths x : ℚ) / 100 - 1 / 200 := by linarith
    rw [hq2, le_div_iff₀ hP]
    linarith
  · intro hq
    have hq2 : q = (hundredths x : ℚ) / 100 + 1 / 200 := by linarith
    rw [hq2, div_lt_iff₀ hP]
    linarith

theorem abs_hundredths_le (n c k d : Nat) (hc : 0 < c) (hd : d = 200 * c)
    (h1 : 2 * c * k ≤ n + c) (h2 : n ≤ 2 * c * k + c) :
    |(k : ℚ) / 100 - (n : ℚ) / d| ≤ 1 / 200 := by
  have hcq : (0 : ℚ) < c := by exact_mod_cast hc
  have e1 : (2 : ℚ) * c * k ≤ n + c := by exact_mod_cast h1
  have e2 : (n : ℚ) ≤ 2 * c * k + c := by exact_mod_cast h2
  have hdq : (d : ℚ) = 200 * c := by rw [hd]; push_cast; ring
  have key : (k : ℚ) / 100 - (n : ℚ) / d = (2 * c * k - n) / (200 * c) := by
    rw [hdq]; field_simp; ring
  rw [key, abs_le]
  constructor
  · rw [le_div_iff₀ (by positivity)]
    nlinarith
  · rw [div_le_iff₀ (by positivity)]
    nlinarith

/-- The three conditions of the size label determine it: for a quotient `q` and
a double `x`, at most one number of hundredths is nearest to `q` and, on a tie,
on the side of `x`. -/
theorem hundredths_unique (q x : ℚ) (k₁ k₂ : Nat)
    (n₁ : |(k₁ : ℚ) / 100 - q| ≤ 1 / 200) (n₂ : |(k₂ : ℚ) / 100 - q| ≤ 1 / 200)
    (u₁ : (k₁ : ℚ) / 100 - q = 1 / 200 → q ≤ x) (d₁ : q - (k₁ : ℚ) / 100 = 1 / 200 → x < q)
    (u₂ : (k₂ : ℚ) / 100 - q = 1 / 200 → q ≤ x) (d₂ : q - (k₂ : ℚ) / 100 = 1 / 200 → x < q) :
    k₁ = k₂ := by
  rw [abs_le] at n₁ n₂
  rcases Nat.lt_trichotomy k₁ k₂ with hlt | heq | hgt
  · have hc : (k₁ : ℚ) + 1 ≤ (k₂ : ℚ) := by exact_mod_cast hlt
    have h1 := u₂ (by linarith)
    have h2 := d₁ (by linarith)
    linarith
  · exact heq
  · have hc : (k₂ : ℚ) + 1 ≤ (k₁ : ℚ) := by exact_mod_cast hgt
    have h1 := u₁ (by linarith)
    have h2 := d₂ (by linarith)
    linarith

/-- C5 (amended): for every byte count `n` below `2 ^ 53`, `humanReadableBytes`
shows `n` itself with the unit "bytes" when `n < 1000`; `n / 1000` rounded to
the nearest value of 2 decimals with the unit "kB" when `1000 ≤ n < 1000000`;
and `n / 1000000` rounded to the nearest value of 2 decimals with the unit
"MB" otherwise. When the quotient lies exactly midway between two such values,
the upper one is shown if the double nearest to the quotient (`divNumber`) is
not below the quotient, the lower one if it is below: 1005 gives "1.00 kB",
8345 gives "8.35 kB", 1125 gives "1.13 kB". The unit follows the threshold,
not the rounded value: 999 gives "999 bytes", 1000 gives "1.00 kB", 999999
gives "1000.00 kB" and 2500000 gives "2.50 MB". -/
theorem humanReadableBytes_label (n : Nat) (h : n < 2 ^ 53) :
    (n < 1000 → humanReadableBytes n = ⟨ParamValue.number n, " bytes"⟩) ∧
      (1000 ≤ n → n < 1000000 → ∃ k : Nat,
        humanReadableBytes n = ⟨ParamValue.string (formatHundredths k), " kB"⟩ ∧
        |(k : ℚ) / 100 - (n : ℚ) / 1000| ≤ 1 / 200 ∧
        ((k : ℚ) / 100 - (n : ℚ) / 1000 = 1 / 200 →
          (n : ℚ) / 1000 ≤ (divNumber n 1000).toRat) ∧
        ((n : ℚ) / 1000 - (k : ℚ) / 100 = 1 / 200 →
          (divNumber n 1000).toRat < (n : ℚ) / 1000)) ∧
      (1000000 ≤ n → ∃ k : Nat,
        humanReadableBytes n = ⟨ParamValue.string (formatHundredths k), " MB"⟩ ∧
        |(k : ℚ) / 100 - (n : ℚ) / 1000000| ≤ 1 / 200 ∧
        ((k : ℚ) / 100 - (n : ℚ) / 1000000 = 1 / 200 →
          (n : ℚ) / 1000000 ≤ (divNumber n 1000000).toRat) ∧
        ((n : ℚ) / 1000000 - (k : ℚ) / 100 = 1 / 200 →
          (divNumber n 1000000).toRat < (n : ℚ) / 1000000)) ∧
      shown (humanReadableBytes 999) = "999 bytes" ∧
      shown (humanReadableBytes 1000) = "1.00 kB" ∧
      shown (humanReadableBytes 999999) = "1000.00 kB" ∧
      shown (humanReadableBytes 2500000) = "2.50 MB" ∧
      shown (humanReadableBytes 1005) = "1.00 kB" ∧
      shown (humanReadableBytes 8345) = "8.35 kB" ∧
      shown (humanReadableBytes 1125) = "1.13 kB" := by
  refine ⟨?_, ?_, ?_, by decide, by decide, by decide, by decide, by decide, by decide,
    by decide⟩
  · intro h1
    unfold humanReadableBytes
    simp only [h1, if_true]
  · intro h1 h2
    have ht := hundredths_tie (divNumber n 1000) ((n : ℚ) / 1000)
    refine ⟨hundredths (divNumber n 1000), ?_, ?_, ht.1, ht.2⟩
    · unfold humanReadableBytes toFixed2
      have h3 : ¬ n < 1000 := by omega
      have h4 : n < 1000 * 1000 := by omega
      simp only [h3, h4, if_true, if_false]
    · have hq : n / (200 * 5) < 2 ^ (9 + 1) := by
        rw [Nat.div_lt_iff_lt_mul (by norm_num)]; omega
      have hn := divNumber_near n 5 9 (by norm_num) (by norm_num) hq (by norm_num)
      have hc := abs_hundredths_le n 5 (hundredths (divNumber n (200 * 5))) 1000
        (by norm_num) (by norm_num) hn.1 hn.2
      exact_mod_cast hc
  · intro h1
    have ht := hundredths_tie (divNumber n 1000000) ((n : ℚ) / 1000000)
    refine ⟨hundredths (divNumber n 1000000), ?_, ?_, ht.1, ht.2⟩
    · unfold humanReadableBytes toFixed2
      have h3 : ¬ n < 1000 := by omega
      have h4 : ¬ n < 1000 * 1000 := by omega
      simp only [h3, h4, if_false]
    · have hq : n / (200 * 5000) < 2 ^ (33 + 1) := by
        rw [Nat.div_lt_iff_lt_mul (by norm_num)]
        have : (2 : Nat) ^ 53 ≤ 2 ^ (33 + 1) * (200 * 5000) := by norm_num
        omega
      have hn := divNumber_near n 5000 33 (by norm_num) (by norm_num) hq (by norm_num)
      have hc := abs_hundredths_le n 5000 (hundredths (divNumber n (200 * 5000))) 1000000
        (by norm_num) (by norm_num) hn.1 hn.2
      exact_mod_cast hc

theorem humanReadableBytes_label_witness :
    1005 < 2 ^ 53 ∧
      ((1005 < 1000 → humanReadableBytes 1005 = ⟨ParamValue.number 1005, " bytes"⟩) ∧
      (1000 ≤ 1005 → 1005 < 1000000 → ∃ k : Nat,
        humanReadableBytes 1005 = ⟨ParamValue.string (formatHundredths k), " kB"⟩ ∧
        |(k : ℚ) / 100 - ((1005 : Nat) : ℚ) / 1000| ≤ 1 / 200 ∧
        ((k : ℚ) / 100 - ((1005 : Nat) : ℚ) / 1000 = 1 / 200 →
          ((1005 : Nat) : ℚ) / 1000 ≤ (divNumber 1005 1000).toRat) ∧
        (((1005 : Nat) : ℚ) / 1000 - (k : ℚ) / 100 = 1 / 200 →
          (divNumber 1005 1000).toRat < ((1005 : Nat) : ℚ) / 1000)) ∧
      (1000000 ≤ 1005 → ∃ k : Nat,
        humanReadableBytes 1005 = ⟨ParamValue.string (formatHundredths k), " MB"⟩ ∧
        |(k : ℚ) / 100 - ((1005 : Nat) : ℚ) / 1000000| ≤ 1 / 200 ∧
        ((k : ℚ) / 100 - ((1005 : Nat) : ℚ) / 1000000 = 1 / 200 →
          ((1005 : Nat) : ℚ) / 1000000 ≤ (divNumber 1005 1000000).toRat) ∧
        (((1005 : Nat) : ℚ) / 1000000 - (k : ℚ) / 100 = 1 / 200 →
          (divNumber 1005 1000000).toRat < ((1005 : Nat) : ℚ) / 1000000)) ∧
      shown (humanReadableBytes 999) = "999 bytes" ∧
      shown (humanReadableBytes 1000) = "1.00 kB" ∧
      shown (humanReadableBytes 999999) = "1000.00 kB" ∧
      shown (humanReadableBytes 2500000) = "2.50 MB" ∧
      shown (humanReadableBytes 1005) = "1.00 kB" ∧
      shown (humanReadableBytes 8345) = "8.35 kB" ∧
      shown (humanReadableBytes 1125) = "1.13 kB") :=
  ⟨by decide, humanReadableBytes_label 1005 (by decide)⟩

end Indico
